import Mathlib

/-!
Verification of the tree-cleaning core of `clean-html` (src/main.py).

The core operates on a parsed document tree (BeautifulSoup).  We embed the
tree as a rose tree with three node kinds (Element / Text / Comment) and the
five pipeline passes of `clean_html` as Lean functions:

* tag removal        — `for name in remove_tag: soup.find_all(name).decompose()`
* comment removal    — `find_all(string=isinstance Comment).extract()`
* attribute filter   — `tag.attrs = {k: v for k, v in tag.attrs.items() if k in keep}`
* wrapper collapser  — `minimize_nesting` (scan, unwrap first eligible, restart)
* empty pruner       — `remove_empty_tags` (scan, decompose first empty, restart)

Notes on BeautifulSoup semantics embedded here:
* `Comment` is a subclass of `NavigableString`, so `_significant_children`'s
  test `isinstance(c, NavigableString) and not c.strip()` skips whitespace-only
  Comments exactly like whitespace-only text.
* `Tag.unwrap()` replaces the tag in its parent's child list by its whole
  `contents` (all children, significant or not).
* `Tag.decompose()` removes the tag together with its whole subtree.
* `soup.find_all(True)` yields the element nodes in document (pre-)order and
  never yields the `BeautifulSoup` root object itself, so the root container
  is never unwrapped nor decomposed.  We model a document as the root's child
  forest (`List Node`).
-/

namespace CleanHtml

/-- A BeautifulSoup node: `Tag` (element), `NavigableString` (text) or
`Comment`. -/
inductive Node where
  | element (name : String) (attrs : List (String × String)) (children : List Node)
  | text (s : String)
  | comment (s : String)
deriving Repr

mutual

/-- Boolean equality on nodes (structural). -/
def beqN : Node → Node → Bool
  | .element n1 a1 c1, .element n2 a2 c2 => n1 == n2 && a1 == a2 && beqL c1 c2
  | .text s1, .text s2 => s1 == s2
  | .comment s1, .comment s2 => s1 == s2
  | _, _ => false

/-- Boolean equality on node lists (structural). -/
def beqL : List Node → List Node → Bool
  | [], [] => true
  | a :: as, b :: bs => beqN a b && beqL as bs
  | _, _ => false

end

mutual

theorem beqN_eq : ∀ a b : Node, beqN a b = true → a = b
  | .element n1 a1 c1, .element n2 a2 c2, h => by
    simp only [beqN, Bool.and_eq_true, beq_iff_eq] at h
    obtain ⟨⟨h1, h2⟩, h3⟩ := h
    rw [h1, h2, beqL_eq c1 c2 h3]
  | .text s1, .text s2, h => by
    simp only [beqN, beq_iff_eq] at h; rw [h]
  | .comment s1, .comment s2, h => by
    simp only [beqN, beq_iff_eq] at h; rw [h]
  | .element _ _ _, .text _, h => by simp [beqN] at h
  | .element _ _ _, .comment _, h => by simp [beqN] at h
  | .text _, .element _ _ _, h => by simp [beqN] at h
  | .text _, .comment _, h => by simp [beqN] at h
  | .comment _, .element _ _ _, h => by simp [beqN] at h
  | .comment _, .text _, h => by simp [beqN] at h

theorem beqL_eq : ∀ as bs : List Node, beqL as bs = true → as = bs
  | [], [], _ => rfl
  | a :: as, b :: bs, h => by
    simp only [beqL, Bool.and_eq_true] at h
    rw [beqN_eq a b h.1, beqL_eq as bs h.2]
  | [], _ :: _, h => by simp [beqL] at h
  | _ :: _, [], h => by simp [beqL] at h

end

mutual

theorem beqN_refl : ∀ a : Node, beqN a a = true
  | .element n1 a1 c1 => by simp [beqN, beqL_refl c1]
  | .text s1 => by simp [beqN]
  | .comment s1 => by simp [beqN]

theorem beqL_refl : ∀ as : List Node, beqL as as = true
  | [] => rfl
  | a :: as => by simp [beqL, beqN_refl a, beqL_refl as]

end

instance : DecidableEq Node := fun a b =>
  if h : beqN a b = true then isTrue (beqN_eq a b h)
  else isFalse (fun he => h (he ▸ beqN_refl a))

/-- Python `str.strip()` whitespace (ASCII part): a character stripped by
`c.strip()`. -/
def isSpacePy (c : Char) : Bool :=
  c == ' ' || c == '\t' || c == '\n' || c == '\r' || c == Char.ofNat 11 || c == Char.ofNat 12

/-- Python `not c.strip()`: the payload is empty or all-whitespace. -/
def isBlank (s : String) : Bool := s.data.all isSpacePy

/-- The test applied by `_significant_children` to each child `c`:
`isinstance(c, NavigableString) and not c.strip()` skips the child.
A `Comment` is a `NavigableString`, so blank comments are insignificant too;
an element is always significant. -/
def significant : Node → Bool
  | .element _ _ _ => true
  | .text s => !(isBlank s)
  | .comment s => !(isBlank s)

/-- Function `_significant_children(tag)`, acting on the tag's `contents`. -/
def significant_children (ns : List Node) : List Node := ns.filter significant

mutual

/-- Number of nodes in the subtree rooted at one node. -/
def nodeCountN : Node → Nat
  | .element _ _ cs => 1 + nodeCount cs
  | _ => 1

/-- Number of nodes in a forest (every Element, Text and Comment counts). -/
def nodeCount : List Node → Nat
  | [] => 0
  | x :: rest => nodeCountN x + nodeCount rest

end

mutual

/-- Tag Remover at a single node: a matched element disappears with its whole
subtree (it contributes nothing), any other node is kept with its subtree
cleaned. -/
def removeTagsN (names : List String) : Node → List Node
  | .element n a cs =>
      if names.contains n then [] else [.element n a (removeTags names cs)]
  | x => [x]

/-- Tag Remover: `for name in args.remove_tag: for t in soup.find_all(name):
t.decompose()` — every element whose name is in the removal set disappears
together with its whole subtree (children are not reattached). -/
def removeTags (names : List String) : List Node → List Node
  | [] => []
  | x :: rest => removeTagsN names x ++ removeTags names rest

end

mutual

/-- Comment Remover at a single node: a comment is dropped, any other node is
kept with comments removed from its subtree. -/
def removeCommentsN : Node → List Node
  | .element n a cs => [.element n a (removeComments cs)]
  | .comment _ => []
  | x => [x]

/-- Comment Remover: `for c in soup.find_all(string=λt: isinstance(t, Comment)):
c.extract()` — every comment node is detached; siblings keep their order. -/
def removeComments : List Node → List Node
  | [] => []
  | x :: rest => removeCommentsN x ++ removeComments rest

end

mutual

/-- Attribute Filter at a single node. -/
def filterAttrsN (keep : List String) : Node → Node
  | .element n a cs =>
      .element n (a.filter (fun kv => keep.contains kv.1)) (filterAttrs keep cs)
  | x => x

/-- Attribute Filter: `tag.attrs = {k: v for k, v in tag.attrs.items() if k in
keep}` applied to every element, keeping original order of retained pairs. -/
def filterAttrs (keep : List String) : List Node → List Node
  | [] => []
  | x :: rest => filterAttrsN keep x :: filterAttrs keep rest

end

/-- The unwrap predicate of `minimize_nesting` for a tag with name `nm`,
attribute list `attrs` and contents `cs`: exactly one significant child which
is itself a Tag, `tag.attrs` empty, and (when `same_name_only`) equal names. -/
def eligible (sn : Bool) (nm : String) (attrs : List (String × String))
    (cs : List Node) : Bool :=
  match significant_children cs with
  | [Node.element cn _ _] => attrs.isEmpty && (!sn || cn == nm)
  | _ => false

mutual

/-- The scan of `minimize_nesting` restricted to one node and its subtree, in
document (pre-)order: if the node itself is an eligible element its contents
are returned (`unwrap()` splices them into the parent), otherwise the first
eligible descendant, if any, is unwrapped in place and the rebuilt node
returned. -/
def unwrapNode (sn : Bool) : Node → Option (List Node)
  | .element n a cs =>
      if eligible sn n a cs then some cs
      else
        match unwrapFirst sn cs with
        | some cs' => some [.element n a cs']
        | none => none
  | _ => none

/-- One iteration of the `for tag in list(soup.find_all(True))` scan in
`minimize_nesting`: find the first eligible element in document (pre-)order
and `unwrap()` it, i.e. replace it in its parent's child list by its whole
`contents`.  `none` means a full scan found no eligible element. -/
def unwrapFirst (sn : Bool) : List Node → Option (List Node)
  | [] => none
  | x :: rest =>
      match unwrapNode sn x with
      | some repl => some (repl ++ rest)
      | none =>
        match unwrapFirst sn rest with
        | some rest' => some (x :: rest')
        | none => none

end

/-- The `while changed` loop of `minimize_nesting`, with the node count as
fuel: each unwrap removes exactly one node, so `nodeCount f` scans always
suffice to reach the fixed point (`minimize_nesting_fix` below). -/
def minimizeAux (sn : Bool) : Nat → List Node → List Node
  | 0, f => f
  | fuel + 1, f =>
      match unwrapFirst sn f with
      | none => f
      | some f' => minimizeAux sn fuel f'

/-- Function `minimize_nesting(soup, same_name_only=sn)`: unwrap eligible
wrappers until a full scan finds none. -/
def minimize_nesting (sn : Bool) (f : List Node) : List Node :=
  minimizeAux sn (nodeCount f) f

mutual

/-- The scan of `remove_empty_tags` restricted to one node and its subtree,
in document (pre-)order: an element with no significant children is
`decompose()`d (it contributes nothing to the parent), otherwise the first
empty descendant, if any, is deleted and the rebuilt node returned. -/
def deleteNode : Node → Option (List Node)
  | .element n a cs =>
      if (significant_children cs).isEmpty then some []
      else
        match deleteFirstEmpty cs with
        | some cs' => some [.element n a cs']
        | none => none
  | _ => none

/-- One iteration of the scan in `remove_empty_tags`: find the first element
in document (pre-)order with no significant children and `decompose()` it
(drop it with its whole subtree). -/
def deleteFirstEmpty : List Node → Option (List Node)
  | [] => none
  | x :: rest =>
      match deleteNode x with
      | some repl => some (repl ++ rest)
      | none =>
        match deleteFirstEmpty rest with
        | some rest' => some (x :: rest')
        | none => none

end

/-- The `while changed` loop of `remove_empty_tags`, node count as fuel (each
decompose removes at least one node; fixed point reached —
`remove_empty_tags_fix` below). -/
def removeEmptyAux : Nat → List Node → List Node
  | 0, f => f
  | fuel + 1, f =>
      match deleteFirstEmpty f with
      | none => f
      | some f' => removeEmptyAux fuel f'

/-- Function `remove_empty_tags(soup)`: decompose empty elements until none
remain. -/
def remove_empty_tags (f : List Node) : List Node :=
  removeEmptyAux (nodeCount f) f

/-- The configuration bundle assembled by `parse_args` (tree-relevant part;
`prettify` only affects external serialization). -/
structure Config where
  remove_tag : List String
  keep_attr : List String
  remove_comments : Bool
  same_name_only : Bool
  minimize_nesting : Bool
  remove_empty : Bool
deriving Repr, DecidableEq

/-- The default configuration from `parse_args`. -/
def defaultConfig : Config :=
  { remove_tag := ["style", "span", "meta", "script"]
  , keep_attr := ["href", "src", "alt"]
  , remove_comments := true
  , same_name_only := true
  , minimize_nesting := true
  , remove_empty := true }

/-- Function `clean_html` on the already-parsed tree (parsing and
serialization are external): tag removal, optional comment removal, attribute
filter, optional wrapper collapsing, optional empty-element pruning, in that
order. -/
def clean_html (cfg : Config) (f : List Node) : List Node :=
  let f1 := removeTags cfg.remove_tag f
  let f2 := if cfg.remove_comments then removeComments f1 else f1
  let f3 := filterAttrs cfg.keep_attr f2
  let f4 := if cfg.minimize_nesting then minimize_nesting cfg.same_name_only f3 else f3
  if cfg.remove_empty then remove_empty_tags f4 else f4

/-- The number of unwraps the `minimize_nesting` loop performs (same
recursion as `minimizeAux`). -/
def minimizeSteps (sn : Bool) : Nat → List Node → Nat
  | 0, _ => 0
  | fuel + 1, f =>
      match unwrapFirst sn f with
      | none => 0
      | some f' => 1 + minimizeSteps sn fuel f'

/-- The number of decompositions the `remove_empty_tags` loop performs (same
recursion as `removeEmptyAux`). -/
def removeEmptySteps : Nat → List Node → Nat
  | 0, _ => 0
  | fuel + 1, f =>
      match deleteFirstEmpty f with
      | none => 0
      | some f' => 1 + removeEmptySteps fuel f'

mutual

/-- The node and every node of its subtree satisfy `p`. -/
def nodeAll (p : Node → Bool) : Node → Bool
  | .element n a cs => p (.element n a cs) && forestAll p cs
  | x => p x

/-- Every node of the forest, at every depth, satisfies `p`. -/
def forestAll (p : Node → Bool) : List Node → Bool
  | [] => true
  | x :: rest => nodeAll p x && forestAll p rest

end

/-- Per-node predicate: the element's tag name is not on the removal list
(non-elements trivially satisfy it). -/
def noBannedP (names : List String) : Node → Bool
  | .element n _ _ => !(names.contains n)
  | _ => true

/-- Per-node predicate: every attribute key is on the keep list. -/
def attrsOKP (keep : List String) : Node → Bool
  | .element _ a _ => a.all (fun kv => keep.contains kv.1)
  | _ => true

/-- Per-node predicate: the element carries no attributes at all. -/
def noAttrsP : Node → Bool
  | .element _ a _ => a.isEmpty
  | _ => true

/-- Per-node predicate: the node is not a comment. -/
def noCommentP : Node → Bool
  | .comment _ => false
  | _ => true

/-- Per-node predicate: the element has at least one significant child. -/
def noEmptyP : Node → Bool
  | .element _ _ cs => !(significant_children cs).isEmpty
  | _ => true

/-- Per-node predicate: the element does not satisfy the unwrap predicate. -/
def noEligP (sn : Bool) : Node → Bool
  | .element n a cs => !(eligible sn n a cs)
  | _ => true

/-- The nondeterministic single-unwrap relation underlying the Wrapper
Collapser: `UStep sn f g` holds when `g` is obtained from `f` by picking any
one eligible element anywhere in the forest and unwrapping it (replacing it
in its parent's child list by its contents).  The implementation always picks
the first eligible element in document order (`unwrapFirst`); the spec's
order-independence property quantifies over all choices. -/
inductive UStep (sn : Bool) : List Node → List Node → Prop
  | unwrap (n : String) (cs rest : List Node) :
      eligible sn n [] cs = true →
      UStep sn (Node.element n [] cs :: rest) (cs ++ rest)
  | inside (n : String) (a : List (String × String)) (cs cs' rest : List Node) :
      UStep sn cs cs' →
      UStep sn (Node.element n a cs :: rest) (Node.element n a cs' :: rest)
  | skip (x : Node) (rest rest' : List Node) :
      UStep sn rest rest' →
      UStep sn (x :: rest) (x :: rest')

/-! ## Basic structural lemmas -/

theorem nodeCountN_pos : ∀ x : Node, 1 ≤ nodeCountN x := by
  intro x
  cases x <;> simp only [nodeCountN] <;> omega

theorem nodeCount_append : ∀ l r : List Node,
    nodeCount (l ++ r) = nodeCount l + nodeCount r := by
  intro l r
  induction l with
  | nil => simp [nodeCount]
  | cons x rest ih =>
    simp only [List.cons_append, nodeCount, List.append_eq]
    rw [ih]
    omega

theorem nodeCount_eq_zero : ∀ {f : List Node}, nodeCount f = 0 → f = [] := by
  intro f h
  cases f with
  | nil => rfl
  | cons x rest =>
    simp only [nodeCount] at h
    have := nodeCountN_pos x
    omega

theorem forestAll_append (p : Node → Bool) : ∀ l r : List Node,
    forestAll p (l ++ r) = (forestAll p l && forestAll p r) := by
  intro l r
  induction l with
  | nil => simp [forestAll]
  | cons x rest ih => simp [forestAll, ih, Bool.and_assoc]

theorem significant_children_append (l r : List Node) :
    significant_children (l ++ r) =
      significant_children l ++ significant_children r := by
  simp [significant_children, List.filter_append]

mutual

theorem unwrapNode_count (sn : Bool) : ∀ (x : Node) (repl : List Node),
    unwrapNode sn x = some repl → nodeCount repl + 1 = nodeCountN x
  | .element n a cs, repl, h => by
    simp only [unwrapNode] at h
    split at h
    · simp only [Option.some.injEq] at h
      subst h
      simp only [nodeCountN]
      omega
    · cases hcs : unwrapFirst sn cs with
      | some cs' =>
        rw [hcs] at h
        simp only [Option.some.injEq] at h
        subst h
        have := unwrapFirst_count sn cs cs' hcs
        simp only [nodeCount, nodeCountN]
        omega
      | none => rw [hcs] at h; cases h
  | .text s, repl, h => by simp [unwrapNode] at h
  | .comment s, repl, h => by simp [unwrapNode] at h

theorem unwrapFirst_count (sn : Bool) : ∀ (f f' : List Node),
    unwrapFirst sn f = some f' → nodeCount f' + 1 = nodeCount f
  | [], _, h => by simp [unwrapFirst] at h
  | x :: rest, f', h => by
    simp only [unwrapFirst] at h
    cases hx : unwrapNode sn x with
    | some repl =>
      rw [hx] at h
      simp only [Option.some.injEq] at h
      subst h
      have := unwrapNode_count sn x repl hx
      simp only [nodeCount, nodeCount_append]
      omega
    | none =>
      rw [hx] at h
      cases hr : unwrapFirst sn rest with
      | some rest' =>
        rw [hr] at h
        simp only [Option.some.injEq] at h
        subst h
        have := unwrapFirst_count sn rest rest' hr
        simp only [nodeCount]
        omega
      | none => rw [hr] at h; cases h

end

mutual

theorem deleteNode_count : ∀ (x : Node) (repl : List Node),
    deleteNode x = some repl → nodeCount repl < nodeCountN x
  | .element n a cs, repl, h => by
    simp only [deleteNode] at h
    split at h
    · simp only [Option.some.injEq] at h
      subst h
      simp only [nodeCount, nodeCountN]
      omega
    · cases hcs : deleteFirstEmpty cs with
      | some cs' =>
        rw [hcs] at h
        simp only [Option.some.injEq] at h
        subst h
        have := deleteFirstEmpty_count cs cs' hcs
        simp only [nodeCount, nodeCountN]
        omega
      | none => rw [hcs] at h; cases h
  | .text s, repl, h => by simp [deleteNode] at h
  | .comment s, repl, h => by simp [deleteNode] at h

theorem deleteFirstEmpty_count : ∀ (f f' : List Node),
    deleteFirstEmpty f = some f' → nodeCount f' < nodeCount f
  | [], _, h => by simp [deleteFirstEmpty] at h
  | x :: rest, f', h => by
    simp only [deleteFirstEmpty] at h
    cases hx : deleteNode x with
    | some repl =>
      rw [hx] at h
      simp only [Option.some.injEq] at h
      subst h
      have := deleteNode_count x repl hx
      simp only [nodeCount, nodeCount_append]
      omega
    | none =>
      rw [hx] at h
      cases hr : deleteFirstEmpty rest with
      | some rest' =>
        rw [hr] at h
        simp only [Option.some.injEq] at h
        subst h
        have := deleteFirstEmpty_count rest rest' hr
        simp only [nodeCount]
        omega
      | none => rw [hr] at h; cases h

end

/-! ## Establishment and identity lemmas for the first three passes -/

mutual

theorem removeTagsN_establishes (names : List String) : ∀ x : Node,
    forestAll (noBannedP names) (removeTagsN names x) = true
  | .element n a cs => by
    simp only [removeTagsN]
    split
    · rfl
    · rename_i hm
      have hm2 : n ∉ names := by
        rw [Bool.not_eq_true] at hm
        simpa using hm
      simp [forestAll, nodeAll, noBannedP, hm2, removeTags_establishes names cs]
  | .text s => by simp [removeTagsN, forestAll, nodeAll, noBannedP]
  | .comment s => by simp [removeTagsN, forestAll, nodeAll, noBannedP]

theorem removeTags_establishes (names : List String) : ∀ f : List Node,
    forestAll (noBannedP names) (removeTags names f) = true
  | [] => rfl
  | x :: rest => by
    simp only [removeTags, forestAll_append]
    rw [removeTagsN_establishes names x, removeTags_establishes names rest]
    rfl

end

mutual

theorem removeTagsN_id (names : List String) : ∀ x : Node,
    nodeAll (noBannedP names) x = true → removeTagsN names x = [x]
  | .element n a cs, h => by
    simp only [nodeAll, Bool.and_eq_true] at h
    have h1 := h.1
    simp only [noBannedP, Bool.not_eq_true'] at h1
    simp only [removeTagsN, h1, Bool.false_eq_true, if_false]
    rw [removeTags_id names cs h.2]
  | .text s, _ => rfl
  | .comment s, _ => rfl

theorem removeTags_id (names : List String) : ∀ f : List Node,
    forestAll (noBannedP names) f = true → removeTags names f = f
  | [], _ => rfl
  | x :: rest, h => by
    simp only [forestAll, Bool.and_eq_true] at h
    simp only [removeTags]
    rw [removeTagsN_id names x h.1, removeTags_id names rest h.2]
    rfl

end

mutual

theorem removeCommentsN_establishes : ∀ x : Node,
    forestAll noCommentP (removeCommentsN x) = true
  | .element n a cs => by
    simp [removeCommentsN, forestAll, nodeAll, noCommentP,
      removeComments_establishes cs]
  | .text s => by simp [removeCommentsN, forestAll, nodeAll, noCommentP]
  | .comment s => by simp [removeCommentsN, forestAll]

theorem removeComments_establishes : ∀ f : List Node,
    forestAll noCommentP (removeComments f) = true
  | [] => rfl
  | x :: rest => by
    simp only [removeComments, forestAll_append]
    rw [removeCommentsN_establishes x, removeComments_establishes rest]
    rfl

end

mutual

theorem removeCommentsN_id : ∀ x : Node,
    nodeAll noCommentP x = true → removeCommentsN x = [x]
  | .element n a cs, h => by
    simp only [nodeAll, Bool.and_eq_true] at h
    simp only [removeCommentsN]
    rw [removeComments_id cs h.2]
  | .text s, _ => rfl
  | .comment s, h => by simp [nodeAll, noCommentP] at h

theorem removeComments_id : ∀ f : List Node,
    forestAll noCommentP f = true → removeComments f = f
  | [], _ => rfl
  | x :: rest, h => by
    simp only [forestAll, Bool.and_eq_true] at h
    simp only [removeComments]
    rw [removeCommentsN_id x h.1, removeComments_id rest h.2]
    rfl

end

mutual

theorem filterAttrsN_establishes (keep : List String) : ∀ x : Node,
    nodeAll (attrsOKP keep) (filterAttrsN keep x) = true
  | .element n a cs => by
    have hall : (a.filter (fun kv => keep.contains kv.1)).all
        (fun kv => keep.contains kv.1) = true :=
      List.all_eq_true.2 fun kv hkv => (List.mem_filter.1 hkv).2
    simp only [filterAttrsN, nodeAll, attrsOKP, hall, Bool.true_and, Bool.and_eq_true]
    exact filterAttrs_establishes keep cs
  | .text s => rfl
  | .comment s => rfl

theorem filterAttrs_establishes (keep : List String) : ∀ f : List Node,
    forestAll (attrsOKP keep) (filterAttrs keep f) = true
  | [] => rfl
  | x :: rest => by
    simp only [filterAttrs, forestAll]
    rw [filterAttrsN_establishes keep x, filterAttrs_establishes keep rest]
    rfl

end

mutual

theorem filterAttrsN_id (keep : List String) : ∀ x : Node,
    nodeAll (attrsOKP keep) x = true → filterAttrsN keep x = x
  | .element n a cs, h => by
    simp only [nodeAll, Bool.and_eq_true] at h
    have h11 : a.all (fun kv => keep.contains kv.1) = true := h.1
    have ha : a.filter (fun kv => keep.contains kv.1) = a :=
      List.filter_eq_self.2 (List.all_eq_true.1 h11)
    simp only [filterAttrsN, ha]
    rw [filterAttrs_id keep cs h.2]
  | .text s, _ => rfl
  | .comment s, _ => rfl

theorem filterAttrs_id (keep : List String) : ∀ f : List Node,
    forestAll (attrsOKP keep) f = true → filterAttrs keep f = f
  | [], _ => rfl
  | x :: rest, h => by
    simp only [forestAll, Bool.and_eq_true] at h
    simp only [filterAttrs]
    rw [filterAttrsN_id keep x h.1, filterAttrs_id keep rest h.2]

end

/-! ## Preservation of per-node invariants by the passes -/

mutual

theorem removeCommentsN_nodeAll (p : Node → Bool)
    (hp : ∀ n a cs cs', p (.element n a cs) = true → p (.element n a cs') = true) :
    ∀ x : Node, nodeAll p x = true → forestAll p (removeCommentsN x) = true
  | .element n a cs, h => by
    simp only [nodeAll, Bool.and_eq_true] at h
    simp only [removeCommentsN, forestAll, nodeAll, Bool.and_true, Bool.and_eq_true]
    exact ⟨hp n a cs _ h.1, removeComments_forestAll p hp cs h.2⟩
  | .text s, h => by
    simp only [nodeAll] at h
    simp [removeCommentsN, forestAll, nodeAll, h]
  | .comment s, _ => rfl

theorem removeComments_forestAll (p : Node → Bool)
    (hp : ∀ n a cs cs', p (.element n a cs) = true → p (.element n a cs') = true) :
    ∀ f : List Node, forestAll p f = true → forestAll p (removeComments f) = true
  | [], _ => rfl
  | x :: rest, h => by
    simp only [forestAll, Bool.and_eq_true] at h
    simp only [removeComments, forestAll_append]
    rw [removeCommentsN_nodeAll p hp x h.1, removeComments_forestAll p hp rest h.2]
    rfl

end

mutual

theorem filterAttrsN_nodeAll (keep : List String) (p : Node → Bool)
    (hp : ∀ n a a' cs cs', p (.element n a cs) = true → p (.element n a' cs') = true) :
    ∀ x : Node, nodeAll p x = true → nodeAll p (filterAttrsN keep x) = true
  | .element n a cs, h => by
    simp only [nodeAll, Bool.and_eq_true] at h
    simp only [filterAttrsN, nodeAll, Bool.and_eq_true]
    exact ⟨hp n a _ cs _ h.1, filterAttrs_forestAll keep p hp cs h.2⟩
  | .text s, h => h
  | .comment s, h => h

theorem filterAttrs_forestAll (keep : List String) (p : Node → Bool)
    (hp : ∀ n a a' cs cs', p (.element n a cs) = true → p (.element n a' cs') = true) :
    ∀ f : List Node, forestAll p f = true → forestAll p (filterAttrs keep f) = true
  | [], _ => rfl
  | x :: rest, h => by
    simp only [forestAll, Bool.and_eq_true] at h
    simp only [filterAttrs, forestAll]
    rw [filterAttrsN_nodeAll keep p hp x h.1, filterAttrs_forestAll keep p hp rest h.2]
    rfl

end

mutual

theorem unwrapNode_forestAll (sn : Bool) (p : Node → Bool)
    (hp : ∀ n a cs cs', p (.element n a cs) = true → p (.element n a cs') = true) :
    ∀ (x : Node) (repl : List Node), unwrapNode sn x = some repl →
      nodeAll p x = true → forestAll p repl = true
  | .element n a cs, repl, h, hall => by
    simp only [nodeAll, Bool.and_eq_true] at hall
    simp only [unwrapNode] at h
    split at h
    · simp only [Option.some.injEq] at h
      subst h
      exact hall.2
    · cases hcs : unwrapFirst sn cs with
      | some cs' =>
        rw [hcs] at h
        simp only [Option.some.injEq] at h
        subst h
        simp only [forestAll, nodeAll, Bool.and_true, Bool.and_eq_true]
        exact ⟨hp n a cs _ hall.1, unwrapFirst_forestAll sn p hp cs cs' hcs hall.2⟩
      | none => rw [hcs] at h; cases h
  | .text s, repl, h, _ => by simp [unwrapNode] at h
  | .comment s, repl, h, _ => by simp [unwrapNode] at h

theorem unwrapFirst_forestAll (sn : Bool) (p : Node → Bool)
    (hp : ∀ n a cs cs', p (.element n a cs) = true → p (.element n a cs') = true) :
    ∀ f f' : List Node, unwrapFirst sn f = some f' →
      forestAll p f = true → forestAll p f' = true
  | [], _, h, _ => by simp [unwrapFirst] at h
  | x :: rest, f', h, hall => by
    simp only [forestAll, Bool.and_eq_true] at hall
    simp only [unwrapFirst] at h
    cases hx : unwrapNode sn x with
    | some repl =>
      rw [hx] at h
      simp only [Option.some.injEq] at h
      subst h
      simp only [forestAll_append]
      rw [unwrapNode_forestAll sn p hp x repl hx hall.1, hall.2]
      rfl
    | none =>
      rw [hx] at h
      cases hr : unwrapFirst sn rest with
      | some rest' =>
        rw [hr] at h
        simp only [Option.some.injEq] at h
        subst h
        simp only [forestAll]
        rw [hall.1, unwrapFirst_forestAll sn p hp rest rest' hr hall.2]
        rfl
      | none => rw [hr] at h; cases h

end

mutual

theorem deleteNode_forestAll (p : Node → Bool)
    (hp : ∀ n a cs cs', p (.element n a cs) = true → p (.element n a cs') = true) :
    ∀ (x : Node) (repl : List Node), deleteNode x = some repl →
      nodeAll p x = true → forestAll p repl = true
  | .element n a cs, repl, h, hall => by
    simp only [nodeAll, Bool.and_eq_true] at hall
    simp only [deleteNode] at h
    split at h
    · simp only [Option.some.injEq] at h
      subst h
      rfl
    · cases hcs : deleteFirstEmpty cs with
      | some cs' =>
        rw [hcs] at h
        simp only [Option.some.injEq] at h
        subst h
        simp only [forestAll, nodeAll, Bool.and_true, Bool.and_eq_true]
        exact ⟨hp n a cs _ hall.1, deleteFirstEmpty_forestAll p hp cs cs' hcs hall.2⟩
      | none => rw [hcs] at h; cases h
  | .text s, repl, h, _ => by simp [deleteNode] at h
  | .comment s, repl, h, _ => by simp [deleteNode] at h

theorem deleteFirstEmpty_forestAll (p : Node → Bool)
    (hp : ∀ n a cs cs', p (.element n a cs) = true → p (.element n a cs') = true) :
    ∀ f f' : List Node, deleteFirstEmpty f = some f' →
      forestAll p f = true → forestAll p f' = true
  | [], _, h, _ => by simp [deleteFirstEmpty] at h
  | x :: rest, f', h, hall => by
    simp only [forestAll, Bool.and_eq_true] at hall
    simp only [deleteFirstEmpty] at h
    cases hx : deleteNode x with
    | some repl =>
      rw [hx] at h
      simp only [Option.some.injEq] at h
      subst h
      simp only [forestAll_append]
      rw [deleteNode_forestAll p hp x repl hx hall.1, hall.2]
      rfl
    | none =>
      rw [hx] at h
      cases hr : deleteFirstEmpty rest with
      | some rest' =>
        rw [hr] at h
        simp only [Option.some.injEq] at h
        subst h
        simp only [forestAll]
        rw [hall.1, deleteFirstEmpty_forestAll p hp rest rest' hr hall.2]
        rfl
      | none => rw [hr] at h; cases h

end

/-! ## Fixed points and shrinkage of the two loops -/

theorem minimizeAux_none (sn : Bool) (fuel : Nat) (f : List Node)
    (h : unwrapFirst sn f = none) : minimizeAux sn fuel f = f := by
  cases fuel <;> simp [minimizeAux, h]

theorem minimizeAux_fix (sn : Bool) : ∀ fuel f, nodeCount f ≤ fuel →
    unwrapFirst sn (minimizeAux sn fuel f) = none := by
  intro fuel
  induction fuel with
  | zero =>
    intro f hf
    have : f = [] := nodeCount_eq_zero (Nat.le_zero.mp hf)
    subst this
    simp [minimizeAux, unwrapFirst]
  | succ fuel ih =>
    intro f hf
    cases h : unwrapFirst sn f with
    | none => simp [minimizeAux, h]
    | some f' =>
      simp only [minimizeAux, h]
      apply ih
      have := unwrapFirst_count sn f f' h
      omega

theorem minimize_nesting_fix (sn : Bool) (f : List Node) :
    unwrapFirst sn (minimize_nesting sn f) = none :=
  minimizeAux_fix sn (nodeCount f) f le_rfl

theorem minimize_nesting_of_none (sn : Bool) (f : List Node)
    (h : unwrapFirst sn f = none) : minimize_nesting sn f = f :=
  minimizeAux_none sn (nodeCount f) f h

theorem minimize_nesting_idem (sn : Bool) (f : List Node) :
    minimize_nesting sn (minimize_nesting sn f) = minimize_nesting sn f :=
  minimize_nesting_of_none sn _ (minimize_nesting_fix sn f)

theorem removeEmptyAux_none (fuel : Nat) (f : List Node)
    (h : deleteFirstEmpty f = none) : removeEmptyAux fuel f = f := by
  cases fuel <;> simp [removeEmptyAux, h]

theorem removeEmptyAux_fix : ∀ fuel f, nodeCount f ≤ fuel →
    deleteFirstEmpty (removeEmptyAux fuel f) = none := by
  intro fuel
  induction fuel with
  | zero =>
    intro f hf
    have : f = [] := nodeCount_eq_zero (Nat.le_zero.mp hf)
    subst this
    simp [removeEmptyAux, deleteFirstEmpty]
  | succ fuel ih =>
    intro f hf
    cases h : deleteFirstEmpty f with
    | none => simp [removeEmptyAux, h]
    | some f' =>
      simp only [removeEmptyAux, h]
      apply ih
      have := deleteFirstEmpty_count f f' h
      omega

theorem remove_empty_tags_fix (f : List Node) :
    deleteFirstEmpty (remove_empty_tags f) = none :=
  removeEmptyAux_fix (nodeCount f) f le_rfl

theorem remove_empty_tags_of_none (f : List Node)
    (h : deleteFirstEmpty f = none) : remove_empty_tags f = f :=
  removeEmptyAux_none (nodeCount f) f h

theorem remove_empty_tags_idem (f : List Node) :
    remove_empty_tags (remove_empty_tags f) = remove_empty_tags f :=
  remove_empty_tags_of_none _ (remove_empty_tags_fix f)

theorem minimizeAux_count (sn : Bool) : ∀ fuel f,
    nodeCount (minimizeAux sn fuel f) ≤ nodeCount f := by
  intro fuel
  induction fuel with
  | zero => intro f; simp [minimizeAux]
  | succ fuel ih =>
    intro f
    cases h : unwrapFirst sn f with
    | none => simp [minimizeAux, h]
    | some f' =>
      simp only [minimizeAux, h]
      have h1 := ih f'
      have h2 := unwrapFirst_count sn f f' h
      omega

theorem removeEmptyAux_count : ∀ fuel f,
    nodeCount (removeEmptyAux fuel f) ≤ nodeCount f := by
  intro fuel
  induction fuel with
  | zero => intro f; simp [removeEmptyAux]
  | succ fuel ih =>
    intro f
    cases h : deleteFirstEmpty f with
    | none => simp [removeEmptyAux, h]
    | some f' =>
      simp only [removeEmptyAux, h]
      have h1 := ih f'
      have h2 := deleteFirstEmpty_count f f' h
      omega

theorem minimizeSteps_le (sn : Bool) : ∀ fuel f,
    minimizeSteps sn fuel f ≤ nodeCount f := by
  intro fuel
  induction fuel with
  | zero => intro f; simp [minimizeSteps]
  | succ fuel ih =>
    intro f
    cases h : unwrapFirst sn f with
    | none => simp [minimizeSteps, h]
    | some f' =>
      simp only [minimizeSteps, h]
      have h1 := ih f'
      have h2 := unwrapFirst_count sn f f' h
      omega

theorem removeEmptySteps_le : ∀ fuel f,
    removeEmptySteps fuel f ≤ nodeCount f := by
  intro fuel
  induction fuel with
  | zero => intro f; simp [removeEmptySteps]
  | succ fuel ih =>
    intro f
    cases h : deleteFirstEmpty f with
    | none => simp [removeEmptySteps, h]
    | some f' =>
      simp only [removeEmptySteps, h]
      have h1 := ih f'
      have h2 := deleteFirstEmpty_count f f' h
      omega

/-! ## Characterization of the loops' stopping conditions -/

mutual

theorem deleteNode_none_nodeAll : ∀ x : Node,
    deleteNode x = none → nodeAll noEmptyP x = true
  | .element n a cs, h => by
    simp only [deleteNode] at h
    split at h
    · cases h
    · rename_i hempty
      cases hcs : deleteFirstEmpty cs with
      | some cs' => rw [hcs] at h; cases h
      | none =>
        simp only [nodeAll, noEmptyP, Bool.and_eq_true]
        exact ⟨by simpa using hempty, deleteFirstEmpty_none_forestAll cs hcs⟩
  | .text s, _ => rfl
  | .comment s, _ => rfl

theorem deleteFirstEmpty_none_forestAll : ∀ f : List Node,
    deleteFirstEmpty f = none → forestAll noEmptyP f = true
  | [], _ => rfl
  | x :: rest, h => by
    simp only [deleteFirstEmpty] at h
    cases hx : deleteNode x with
    | some repl => rw [hx] at h; cases h
    | none =>
      rw [hx] at h
      cases hr : deleteFirstEmpty rest with
      | some rest' => rw [hr] at h; cases h
      | none =>
        simp only [forestAll, Bool.and_eq_true]
        exact ⟨deleteNode_none_nodeAll x hx, deleteFirstEmpty_none_forestAll rest hr⟩

end

mutual

theorem unwrapNode_none_nodeAll (sn : Bool) : ∀ x : Node,
    unwrapNode sn x = none → nodeAll (noEligP sn) x = true
  | .element n a cs, h => by
    simp only [unwrapNode] at h
    split at h
    · cases h
    · rename_i helig
      cases hcs : unwrapFirst sn cs with
      | some cs' => rw [hcs] at h; cases h
      | none =>
        simp only [nodeAll, noEligP, Bool.and_eq_true]
        exact ⟨by simpa using helig, unwrapFirst_none_forestAll sn cs hcs⟩
  | .text s, _ => rfl
  | .comment s, _ => rfl

theorem unwrapFirst_none_forestAll (sn : Bool) : ∀ f : List Node,
    unwrapFirst sn f = none → forestAll (noEligP sn) f = true
  | [], _ => rfl
  | x :: rest, h => by
    simp only [unwrapFirst] at h
    cases hx : unwrapNode sn x with
    | some repl => rw [hx] at h; cases h
    | none =>
      rw [hx] at h
      cases hr : unwrapFirst sn rest with
      | some rest' => rw [hr] at h; cases h
      | none =>
        simp only [forestAll, Bool.and_eq_true]
        exact ⟨unwrapNode_none_nodeAll sn x hx, unwrapFirst_none_forestAll sn rest hr⟩

end

mutual

theorem nodeAll_unwrapNode_none (sn : Bool) : ∀ x : Node,
    nodeAll (noEligP sn) x = true → unwrapNode sn x = none
  | .element n a cs, h => by
    simp only [nodeAll, Bool.and_eq_true] at h
    have h1 : eligible sn n a cs = false := by
      have := h.1
      simp [noEligP] at this
      exact this
    simp only [unwrapNode, h1, Bool.false_eq_true, if_false]
    rw [forestAll_unwrapFirst_none sn cs h.2]
  | .text s, _ => rfl
  | .comment s, _ => rfl

theorem forestAll_unwrapFirst_none (sn : Bool) : ∀ f : List Node,
    forestAll (noEligP sn) f = true → unwrapFirst sn f = none
  | [], _ => rfl
  | x :: rest, h => by
    simp only [forestAll, Bool.and_eq_true] at h
    simp only [unwrapFirst]
    rw [nodeAll_unwrapNode_none sn x h.1, forestAll_unwrapFirst_none sn rest h.2]

end

/-! ## Theory of the nondeterministic unwrap relation `UStep` -/

theorem UStep_count (sn : Bool) : ∀ {f g : List Node}, UStep sn f g →
    nodeCount g < nodeCount f := by
  intro f g h
  induction h with
  | unwrap n cs rest helig =>
    simp only [nodeCount, nodeCountN, nodeCount_append]
    omega
  | inside n a cs cs' rest hstep ih =>
    simp only [nodeCount, nodeCountN]
    omega
  | skip x rest rest' hstep ih =>
    simp only [nodeCount]
    omega

theorem UStep_append_right (sn : Bool) {f f' : List Node} (h : UStep sn f f') :
    ∀ g, UStep sn (f ++ g) (f' ++ g) := by
  induction h with
  | unwrap n cs rest helig =>
    intro g
    rw [List.cons_append, List.append_assoc]
    exact UStep.unwrap n cs (rest ++ g) helig
  | inside n a cs cs' rest hstep ih =>
    intro g
    rw [List.cons_append, List.cons_append]
    exact UStep.inside n a cs cs' (rest ++ g) hstep
  | skip x rest rest' hstep ih =>
    intro g
    rw [List.cons_append, List.cons_append]
    exact UStep.skip x (rest ++ g) (rest' ++ g) (ih g)

theorem UStep_append_left (sn : Bool) {g g' : List Node} (h : UStep sn g g') :
    ∀ f, UStep sn (f ++ g) (f ++ g') := by
  intro f
  induction f with
  | nil => simpa using h
  | cons x f ih => exact UStep.skip x (f ++ g) (f ++ g') ih

theorem UStep_no_elem (sn : Bool) : ∀ {f g : List Node},
    (∀ n a cs, Node.element n a cs ∈ f → False) → UStep sn f g → False := by
  intro f g hno h
  induction h with
  | unwrap n cs rest helig => exact hno n [] cs (List.mem_cons_self _ _)
  | inside n a cs cs' rest hstep ih => exact hno n a cs (List.mem_cons_self _ _)
  | skip x rest rest' hstep ih =>
    exact ih fun n a cs hm => hno n a cs (List.mem_cons_of_mem x hm)

theorem sig_nil_no_elem {f : List Node} (h : significant_children f = []) :
    ∀ n a cs, Node.element n a cs ∈ f → False := by
  intro n a cs hm
  have := List.filter_eq_nil_iff.1 h _ hm
  simp [significant] at this

theorem sig_cons_insig {x : Node} (hx : significant x = false) (rest : List Node) :
    significant_children (x :: rest) = significant_children rest := by
  simp [significant_children, List.filter_cons, hx]

theorem sig_cons_sig {x : Node} (hx : significant x = true) (rest : List Node) :
    significant_children (x :: rest) = x :: significant_children rest := by
  simp [significant_children, List.filter_cons, hx]

theorem sig_elem_cons (n : String) (a : List (String × String)) (cs rest : List Node) :
    significant_children (Node.element n a cs :: rest) =
      Node.element n a cs :: significant_children rest := by
  simp [significant_children, List.filter_cons, significant]

theorem eligible_elim {sn : Bool} {nm : String} {attrs : List (String × String)}
    {cs : List Node} (h : eligible sn nm attrs cs = true) :
    ∃ cn ca ck, significant_children cs = [Node.element cn ca ck] ∧
      attrs = [] ∧ (sn = true → cn = nm) := by
  unfold eligible at h
  cases hs : significant_children cs with
  | nil => rw [hs] at h; simp at h
  | cons x l =>
    cases l with
    | cons y l2 => rw [hs] at h; cases x <;> simp at h
    | nil =>
      cases x with
      | element cn ca ck =>
        rw [hs] at h
        simp only [Bool.and_eq_true, Bool.or_eq_true, Bool.not_eq_eq_eq_not,
          Bool.not_true, beq_iff_eq, List.isEmpty_iff] at h
        refine ⟨cn, ca, ck, rfl, h.1, ?_⟩
        intro hsn
        rcases h.2 with h2 | h2
        · rw [hsn] at h2; cases h2
        · exact h2
      | text s => rw [hs] at h; simp at h
      | comment s => rw [hs] at h; simp at h

theorem eligible_intro {sn : Bool} {nm cn : String} {ca : List (String × String)}
    {cs ck : List Node} (hs : significant_children cs = [Node.element cn ca ck])
    (hn : sn = true → cn = nm) : eligible sn nm [] cs = true := by
  unfold eligible
  rw [hs]
  cases sn with
  | false => simp
  | true => simp [hn rfl]

theorem eligible_congr {sn : Bool} {nm : String} {attrs : List (String × String)}
    {cs cs' : List Node} (h : significant_children cs = significant_children cs') :
    eligible sn nm attrs cs = eligible sn nm attrs cs' := by
  unfold eligible
  rw [h]

theorem eligible_step {sn : Bool} {n : String} {cs cs' : List Node}
    (hstep : UStep sn cs cs') (helig : eligible sn n [] cs = true) :
    eligible sn n [] cs' = true := by
  induction hstep with
  | unwrap m ds rest hmd =>
    obtain ⟨cn, ca, ck, hs, -, hname⟩ := eligible_elim helig
    rw [sig_elem_cons] at hs
    obtain ⟨he, hrest⟩ := List.cons_eq_cons.1 hs
    obtain ⟨hm, -, -⟩ := Node.element.inj he
    obtain ⟨k, ka, kk, hds, -, hkname⟩ := eligible_elim hmd
    have hsig' : significant_children (ds ++ rest) = [Node.element k ka kk] := by
      rw [significant_children_append, hds, hrest, List.append_nil]
    exact eligible_intro hsig' fun hsn => by
      rw [hkname hsn, hm, hname hsn]
  | inside m a ds ds' rest hstep ih =>
    obtain ⟨cn, ca, ck, hs, -, hname⟩ := eligible_elim helig
    rw [sig_elem_cons] at hs
    obtain ⟨he, hrest⟩ := List.cons_eq_cons.1 hs
    obtain ⟨hm, -, -⟩ := Node.element.inj he
    have hsig' : significant_children (Node.element m a ds' :: rest) =
        [Node.element m a ds'] := by
      rw [sig_elem_cons, hrest]
    exact eligible_intro hsig' fun hsn => by rw [hm, hname hsn]
  | skip x rest rest' hstep ih =>
    cases hx : significant x with
    | false =>
      have h1 : eligible sn n ([] : List (String × String)) rest = true := by
        rw [← eligible_congr (sig_cons_insig hx rest)]
        exact helig
      have h2 := ih h1
      rw [← eligible_congr (sig_cons_insig hx rest')] at h2
      exact h2
    | true =>
      obtain ⟨cn, ca, ck, hs, -, -⟩ := eligible_elim helig
      rw [sig_cons_sig hx] at hs
      obtain ⟨he, hrest⟩ := List.cons_eq_cons.1 hs
      exact absurd hstep (fun hst => UStep_no_elem sn (sig_nil_no_elem hrest) hst)

theorem reflGen_inside {sn : Bool} {u v : List Node} (n : String)
    (a : List (String × String)) (rest : List Node)
    (h : Relation.ReflGen (UStep sn) u v) :
    Relation.ReflGen (UStep sn) (Node.element n a u :: rest)
      (Node.element n a v :: rest) := by
  cases h with
  | refl => exact Relation.ReflGen.refl
  | single hs => exact Relation.ReflGen.single (UStep.inside n a u v rest hs)

theorem reflGen_skip {sn : Bool} {u v : List Node} (x : Node)
    (h : Relation.ReflGen (UStep sn) u v) :
    Relation.ReflGen (UStep sn) (x :: u) (x :: v) := by
  cases h with
  | refl => exact Relation.ReflGen.refl
  | single hs => exact Relation.ReflGen.single (UStep.skip x u v hs)

/-- Strong local confluence of single unwraps: two different choices of
eligible element can always be rejoined in at most one further unwrap on
each side. -/
theorem UStep_diamond (sn : Bool) : ∀ {a b c : List Node},
    UStep sn a b → UStep sn a c →
    ∃ d, Relation.ReflGen (UStep sn) b d ∧ Relation.ReflGen (UStep sn) c d := by
  intro a b c h1 h2
  induction h1 generalizing c with
  | unwrap n cs rest helig =>
    cases h2 with
    | unwrap _ _ _ _ => exact ⟨cs ++ rest, Relation.ReflGen.refl, Relation.ReflGen.refl⟩
    | inside _ _ _ cs2 _ h2' =>
      refine ⟨cs2 ++ rest, ?_, ?_⟩
      · exact Relation.ReflGen.single (UStep_append_right sn h2' rest)
      · exact Relation.ReflGen.single (UStep.unwrap n cs2 rest (eligible_step h2' helig))
    | skip _ _ rest2 h2' =>
      refine ⟨cs ++ rest2, ?_, ?_⟩
      · exact Relation.ReflGen.single (UStep_append_left sn h2' cs)
      · exact Relation.ReflGen.single (UStep.unwrap n cs rest2 helig)
  | inside n a cs cs1 rest h1' ih =>
    cases h2 with
    | unwrap _ _ _ helig =>
      refine ⟨cs1 ++ rest, ?_, ?_⟩
      · exact Relation.ReflGen.single (UStep.unwrap n cs1 rest (eligible_step h1' helig))
      · exact Relation.ReflGen.single (UStep_append_right sn h1' rest)
    | inside _ _ _ cs2 _ h2' =>
      obtain ⟨d0, hd1, hd2⟩ := ih h2'
      exact ⟨Node.element n a d0 :: rest, reflGen_inside n a rest hd1,
        reflGen_inside n a rest hd2⟩
    | skip _ _ rest2 h2' =>
      refine ⟨Node.element n a cs1 :: rest2, ?_, ?_⟩
      · exact Relation.ReflGen.single (UStep.skip _ rest rest2 h2')
      · exact Relation.ReflGen.single (UStep.inside n a cs cs1 rest2 h1')
  | skip x rest rest1 h1' ih =>
    cases h2 with
    | unwrap n cs _ helig =>
      refine ⟨cs ++ rest1, ?_, ?_⟩
      · exact Relation.ReflGen.single (UStep.unwrap n cs rest1 helig)
      · exact Relation.ReflGen.single (UStep_append_left sn h1' cs)
    | inside n a cs cs2 _ h2' =>
      refine ⟨Node.element n a cs2 :: rest1, ?_, ?_⟩
      · exact Relation.ReflGen.single (UStep.inside n a cs cs2 rest1 h2')
      · exact Relation.ReflGen.single (UStep.skip _ rest rest1 h1')
    | skip _ _ rest2 h2' =>
      obtain ⟨d0, hd1, hd2⟩ := ih h2'
      exact ⟨x :: d0, reflGen_skip x hd1, reflGen_skip x hd2⟩

mutual

/-- The deterministic scan at one node realizes one `UStep`. -/
theorem unwrapNode_ustep (sn : Bool) : ∀ (x : Node) (repl rest : List Node),
    unwrapNode sn x = some repl → UStep sn (x :: rest) (repl ++ rest)
  | .element n a cs, repl, rest, h => by
    simp only [unwrapNode] at h
    split at h
    · rename_i helig
      simp only [Option.some.injEq] at h
      subst h
      obtain ⟨-, -, -, -, ha, -⟩ := eligible_elim helig
      subst ha
      exact UStep.unwrap n _ rest helig
    · cases hcs : unwrapFirst sn cs with
      | some cs' =>
        rw [hcs] at h
        simp only [Option.some.injEq] at h
        subst h
        exact UStep.inside n a cs cs' rest (unwrapFirst_ustep sn cs cs' hcs)
      | none => rw [hcs] at h; cases h
  | .text s, repl, rest, h => by simp [unwrapNode] at h
  | .comment s, repl, rest, h => by simp [unwrapNode] at h

/-- The deterministic scan realizes one `UStep`. -/
theorem unwrapFirst_ustep (sn : Bool) : ∀ f f' : List Node,
    unwrapFirst sn f = some f' → UStep sn f f'
  | [], _, h => by simp [unwrapFirst] at h
  | x :: rest, f', h => by
    simp only [unwrapFirst] at h
    cases hx : unwrapNode sn x with
    | some repl =>
      rw [hx] at h
      simp only [Option.some.injEq] at h
      subst h
      exact unwrapNode_ustep sn x repl rest hx
    | none =>
      rw [hx] at h
      cases hr : unwrapFirst sn rest with
      | some rest' =>
        rw [hr] at h
        simp only [Option.some.injEq] at h
        subst h
        exact UStep.skip x rest rest' (unwrapFirst_ustep sn rest rest' hr)
      | none => rw [hr] at h; cases h

end

theorem ustep_not_forestAll (sn : Bool) : ∀ {f g : List Node}, UStep sn f g →
    forestAll (noEligP sn) f = false := by
  intro f g h
  induction h with
  | unwrap n cs rest helig => simp [forestAll, nodeAll, noEligP, helig]
  | inside n a cs cs' rest hstep ih => simp [forestAll, nodeAll, ih]
  | skip x rest rest' hstep ih => simp [forestAll, ih]

/-- A forest on which some unwrap applies is not a stopping state of the
deterministic scan. -/
theorem ustep_unwrapFirst_ne_none {sn : Bool} {f g : List Node}
    (h : UStep sn f g) : unwrapFirst sn f ≠ none := by
  intro hn
  have h1 := unwrapFirst_none_forestAll sn f hn
  rw [ustep_not_forestAll sn h] at h1
  cases h1

/-- A normal form of `UStep` is exactly a stopping state of the scan. -/
theorem unwrapFirst_none_no_ustep {sn : Bool} {f : List Node}
    (h : unwrapFirst sn f = none) : ∀ g, ¬ UStep sn f g :=
  fun _ hg => ustep_unwrapFirst_ne_none hg h

theorem minimizeAux_reaches (sn : Bool) : ∀ fuel f,
    Relation.ReflTransGen (UStep sn) f (minimizeAux sn fuel f) := by
  intro fuel
  induction fuel with
  | zero => intro f; exact Relation.ReflTransGen.refl
  | succ fuel ih =>
    intro f
    cases h : unwrapFirst sn f with
    | none =>
      simp only [minimizeAux, h]
      exact Relation.ReflTransGen.refl
    | some f' =>
      simp only [minimizeAux, h]
      exact Relation.ReflTransGen.head (unwrapFirst_ustep sn f f' h) (ih f')

theorem minimize_nesting_reaches (sn : Bool) (f : List Node) :
    Relation.ReflTransGen (UStep sn) f (minimize_nesting sn f) :=
  minimizeAux_reaches sn (nodeCount f) f

theorem reflTransGen_eq_of_normal {α : Type} {r : α → α → Prop} {x y : α}
    (h : Relation.ReflTransGen r x y) (hn : ∀ z, ¬ r x z) : x = y := by
  rcases Relation.ReflTransGen.cases_head h with h1 | ⟨z, hz, -⟩
  · exact h1
  · exact absurd hz (hn z)

/-! ## Pipeline-level invariants -/

theorem minimizeAux_forestAll (sn : Bool) (p : Node → Bool)
    (hp : ∀ n a cs cs', p (.element n a cs) = true → p (.element n a cs') = true) :
    ∀ fuel f, forestAll p f = true → forestAll p (minimizeAux sn fuel f) = true := by
  intro fuel
  induction fuel with
  | zero => intro f h; simpa [minimizeAux] using h
  | succ fuel ih =>
    intro f h
    cases hu : unwrapFirst sn f with
    | none => simpa [minimizeAux, hu] using h
    | some f' =>
      simp only [minimizeAux, hu]
      exact ih f' (unwrapFirst_forestAll sn p hp f f' hu h)

theorem minimize_nesting_forestAll (sn : Bool) (p : Node → Bool)
    (hp : ∀ n a cs cs', p (.element n a cs) = true → p (.element n a cs') = true)
    (f : List Node) (h : forestAll p f = true) :
    forestAll p (minimize_nesting sn f) = true :=
  minimizeAux_forestAll sn p hp (nodeCount f) f h

theorem removeEmptyAux_forestAll (p : Node → Bool)
    (hp : ∀ n a cs cs', p (.element n a cs) = true → p (.element n a cs') = true) :
    ∀ fuel f, forestAll p f = true → forestAll p (removeEmptyAux fuel f) = true := by
  intro fuel
  induction fuel with
  | zero => intro f h; simpa [removeEmptyAux] using h
  | succ fuel ih =>
    intro f h
    cases hu : deleteFirstEmpty f with
    | none => simpa [removeEmptyAux, hu] using h
    | some f' =>
      simp only [removeEmptyAux, hu]
      exact ih f' (deleteFirstEmpty_forestAll p hp f f' hu h)

theorem remove_empty_tags_forestAll (p : Node → Bool)
    (hp : ∀ n a cs cs', p (.element n a cs) = true → p (.element n a cs') = true)
    (f : List Node) (h : forestAll p f = true) :
    forestAll p (remove_empty_tags f) = true :=
  removeEmptyAux_forestAll p hp (nodeCount f) f h

theorem forestAll_ite_minimize (p : Node → Bool)
    (hp : ∀ n a cs cs', p (.element n a cs) = true → p (.element n a cs') = true)
    (b sn : Bool) (f : List Node) (h : forestAll p f = true) :
    forestAll p (if b then minimize_nesting sn f else f) = true := by
  cases b with
  | false => simpa using h
  | true => simpa using minimize_nesting_forestAll sn p hp f h

theorem forestAll_ite_removeEmpty (p : Node → Bool)
    (hp : ∀ n a cs cs', p (.element n a cs) = true → p (.element n a cs') = true)
    (b : Bool) (f : List Node) (h : forestAll p f = true) :
    forestAll p (if b then remove_empty_tags f else f) = true := by
  cases b with
  | false => simpa using h
  | true => simpa using remove_empty_tags_forestAll p hp f h

theorem forestAll_ite_removeComments (p : Node → Bool)
    (hp : ∀ n a cs cs', p (.element n a cs) = true → p (.element n a cs') = true)
    (b : Bool) (f : List Node) (h : forestAll p f = true) :
    forestAll p (if b then removeComments f else f) = true := by
  cases b with
  | false => simpa using h
  | true => simpa using removeComments_forestAll p hp f h

/-- The attribute-closure invariant holds of every pipeline output. -/
theorem clean_html_attrsOK (cfg : Config) (t : List Node) :
    forestAll (attrsOKP cfg.keep_attr) (clean_html cfg t) = true := by
  have hp : ∀ n a cs cs', attrsOKP cfg.keep_attr (.element n a cs) = true →
      attrsOKP cfg.keep_attr (.element n a cs') = true := fun _ _ _ _ h => h
  simp only [clean_html]
  exact forestAll_ite_removeEmpty _ hp _ _
    (forestAll_ite_minimize _ hp _ _ _ (filterAttrs_establishes _ _))

/-- The no-banned-tag invariant holds of every pipeline output. -/
theorem clean_html_noBanned (cfg : Config) (t : List Node) :
    forestAll (noBannedP cfg.remove_tag) (clean_html cfg t) = true := by
  have hp : ∀ n a cs cs', noBannedP cfg.remove_tag (.element n a cs) = true →
      noBannedP cfg.remove_tag (.element n a cs') = true := fun _ _ _ _ h => h
  have hp2 : ∀ n a a' cs cs', noBannedP cfg.remove_tag (.element n a cs) = true →
      noBannedP cfg.remove_tag (.element n a' cs') = true := fun _ _ _ _ _ h => h
  simp only [clean_html]
  refine forestAll_ite_removeEmpty _ hp _ _
    (forestAll_ite_minimize _ hp _ _ _
      (filterAttrs_forestAll _ _ hp2 _
        (forestAll_ite_removeComments _ hp _ _ (removeTags_establishes _ t))))

/-- When comment removal is enabled, the output has no comment nodes. -/
theorem clean_html_noComment (cfg : Config) (t : List Node)
    (hrc : cfg.remove_comments = true) :
    forestAll noCommentP (clean_html cfg t) = true := by
  have hp : ∀ n a cs cs', noCommentP (.element n a cs) = true →
      noCommentP (.element n a cs') = true := fun _ _ _ _ h => h
  have hp2 : ∀ n a a' cs cs', noCommentP (.element n a cs) = true →
      noCommentP (.element n a' cs') = true := fun _ _ _ _ _ h => h
  simp only [clean_html, hrc, if_true]
  exact forestAll_ite_removeEmpty _ hp _ _
    (forestAll_ite_minimize _ hp _ _ _
      (filterAttrs_forestAll _ _ hp2 _ (removeComments_establishes _)))

/-- A forest satisfying all output invariants (plus the two stopping
conditions for the enabled loops) is a fixed point of the whole pipeline. -/
theorem clean_html_id_of_invariants (cfg : Config) (o : List Node)
    (hB : forestAll (noBannedP cfg.remove_tag) o = true)
    (hA : forestAll (attrsOKP cfg.keep_attr) o = true)
    (hC : cfg.remove_comments = true → forestAll noCommentP o = true)
    (hfixM : cfg.minimize_nesting = true →
      unwrapFirst cfg.same_name_only o = none)
    (hfixE : cfg.remove_empty = true → deleteFirstEmpty o = none) :
    clean_html cfg o = o := by
  have h2 : (if cfg.remove_comments then removeComments o else o) = o := by
    cases hrc : cfg.remove_comments with
    | false => simp
    | true => simp [removeComments_id o (hC hrc)]
  have h4 : (if cfg.minimize_nesting then
      minimize_nesting cfg.same_name_only o else o) = o := by
    cases hmn : cfg.minimize_nesting with
    | false => simp
    | true => simp [minimize_nesting_of_none _ o (hfixM hmn)]
  simp only [clean_html]
  rw [removeTags_id cfg.remove_tag o hB, h2, filterAttrs_id cfg.keep_attr o hA, h4]
  cases hre : cfg.remove_empty with
  | false => simp
  | true => simp [remove_empty_tags_of_none o (hfixE hre)]

mutual

theorem nodeAll_imp {p q : Node → Bool} (hpq : ∀ x, p x = true → q x = true) :
    ∀ x : Node, nodeAll p x = true → nodeAll q x = true
  | .element n a cs, h => by
    simp only [nodeAll, Bool.and_eq_true] at h ⊢
    exact ⟨hpq _ h.1, forestAll_imp hpq cs h.2⟩
  | .text s, h => hpq _ h
  | .comment s, h => hpq _ h

theorem forestAll_imp {p q : Node → Bool} (hpq : ∀ x, p x = true → q x = true) :
    ∀ f : List Node, forestAll p f = true → forestAll q f = true
  | [], _ => rfl
  | x :: rest, h => by
    simp only [forestAll, Bool.and_eq_true] at h ⊢
    exact ⟨nodeAll_imp hpq x h.1, forestAll_imp hpq rest h.2⟩

end

theorem removeTags_append (names : List String) : ∀ l r : List Node,
    removeTags names (l ++ r) = removeTags names l ++ removeTags names r := by
  intro l r
  induction l with
  | nil => simp [removeTags]
  | cons x rest ih => simp [removeTags, ih]

/-- When the scan's prefix contains no eligible element and the element at the
scan position is eligible, one iteration of `minimize_nesting` replaces that
element by its whole contents, spliced in place. -/
theorem unwrap_splices_contents_aux (sn : Bool) (n : String) (cs rest : List Node)
    (helig : eligible sn n [] cs = true) :
    ∀ l : List Node, forestAll (noEligP sn) l = true →
      unwrapFirst sn (l ++ Node.element n [] cs :: rest) = some (l ++ (cs ++ rest))
  | [], _ => by simp [unwrapFirst, unwrapNode, helig]
  | x :: l, h => by
    simp only [forestAll, Bool.and_eq_true] at h
    have hx : unwrapNode sn x = none := nodeAll_unwrapNode_none sn x h.1
    simp only [List.cons_append, unwrapFirst, hx, List.append_eq]
    rw [unwrap_splices_contents_aux sn n cs rest helig l h.2]

/-- Idempotence core: under any configuration in which the Wrapper Collapser
and the Empty Element Pruner are not both enabled, the pipeline's output is a
fixed point of the pipeline. -/
theorem pipeline_idem_aux (cfg : Config) (t : List Node)
    (hcase : cfg.minimize_nesting = false ∨ cfg.remove_empty = false) :
    clean_html cfg (clean_html cfg t) = clean_html cfg t := by
  apply clean_html_id_of_invariants cfg (clean_html cfg t)
    (clean_html_noBanned cfg t) (clean_html_attrsOK cfg t)
    (clean_html_noComment cfg t)
  · intro hmn
    rcases hcase with hmn' | hre
    · rw [hmn] at hmn'; cases hmn'
    · simp only [clean_html, hre, hmn, if_true, Bool.false_eq_true, if_false,
        ite_true, ite_false]
      exact minimize_nesting_fix _ _
  · intro hre
    rcases hcase with hmn | hre'
    · simp only [clean_html, hre, hmn, if_true, Bool.false_eq_true, if_false,
        ite_true, ite_false]
      exact remove_empty_tags_fix _
    · rw [hre] at hre'; cases hre'

/-! ## Claims -/

/-- C1 (counterexample): the claim predicts that on the tree for
`<div class="x"><div>Hi</div></div>` the outer `div` is never unwrapped and
the output is `<div><div>Hi</div></div>`.  In the code the Attribute Filter
runs before the Wrapper Collapser and strips `class` (not in the default
`keep_attr`), so the outer `div` has no attributes by the time the collapser
runs and is unwrapped: the output is `<div>Hi</div>`. -/
theorem c1_counterexample :
    clean_html defaultConfig
        [Node.element "div" [("class", "x")] [Node.element "div" [] [Node.text "Hi"]]]
      ≠ [Node.element "div" [] [Node.element "div" [] [Node.text "Hi"]]] := by
  decide

/-- C1 (amended): under the default configuration the Attribute Filter strips
`class` before the Wrapper Collapser runs, so the outer `div` becomes
attribute-free and is unwrapped, producing `<div>Hi</div>`.  Only when
`class` is kept in `keep_attr` does the attribute block the unwrap and the
tree stay unchanged. -/
theorem c1_scenario_d_amended :
    clean_html defaultConfig
        [Node.element "div" [("class", "x")] [Node.element "div" [] [Node.text "Hi"]]]
      = [Node.element "div" [] [Node.text "Hi"]]
    ∧ clean_html { defaultConfig with keep_attr := ["href", "src", "alt", "class"] }
        [Node.element "div" [("class", "x")] [Node.element "div" [] [Node.text "Hi"]]]
      = [Node.element "div" [("class", "x")] [Node.element "div" [] [Node.text "Hi"]]] := by
  constructor <;> decide

/-- C2 (counterexample): the claim predicts that unwrapping discards the
wrapper's insignificant whitespace Text children.  `Tag.unwrap()` splices the
wrapper's whole `contents` into the parent, whitespace included: unwrapping
`<div>␣<div>Hi</div>␣</div>` leaves the two whitespace Text nodes in the
parent instead of the claimed bare `[<div>Hi</div>]`. -/
theorem c2_counterexample :
    minimize_nesting true
        [Node.element "div" []
          [Node.text " ", Node.element "div" [] [Node.text "Hi"], Node.text " "]]
      = [Node.text " ", Node.element "div" [] [Node.text "Hi"], Node.text " "]
    ∧ minimize_nesting true
        [Node.element "div" []
          [Node.text " ", Node.element "div" [] [Node.text "Hi"], Node.text " "]]
      ≠ [Node.element "div" [] [Node.text "Hi"]] := by
  constructor <;> decide

/-- C2 (amended): when the Wrapper Collapser unwraps an eligible wrapper
element (no eligible element precedes it in document order), the wrapper is
replaced in its parent's child sequence by its whole contents spliced in
place — the sole significant child `C` together with the wrapper's
insignificant whitespace children, all kept in order and unchanged — rather
than by `C` alone. -/
theorem c2_unwrap_splices_contents (sn : Bool) (n : String)
    (l cs rest : List Node) (hl : forestAll (noEligP sn) l = true)
    (helig : eligible sn n [] cs = true) :
    unwrapFirst sn (l ++ Node.element n [] cs :: rest) = some (l ++ (cs ++ rest)) :=
  unwrap_splices_contents_aux sn n cs rest helig l hl

/-- C2 witness: a concrete run of the amended statement. -/
theorem c2_witness :
    forestAll (noEligP true) [Node.text "hello"] = true
    ∧ eligible true "div" []
        [Node.text " ", Node.element "div" [] [Node.text "Hi"], Node.text " "] = true
    ∧ unwrapFirst true ([Node.text "hello"] ++ Node.element "div" []
          [Node.text " ", Node.element "div" [] [Node.text "Hi"], Node.text " "]
            :: [Node.text "tail"])
      = some ([Node.text "hello"] ++
          ([Node.text " ", Node.element "div" [] [Node.text "Hi"], Node.text " "]
            ++ [Node.text "tail"])) := by
  have h1 : forestAll (noEligP true) [Node.text "hello"] = true := by decide
  have h2 : eligible true "div" []
      [Node.text " ", Node.element "div" [] [Node.text "Hi"], Node.text " "] = true := by
    decide
  exact ⟨h1, h2, c2_unwrap_splices_contents true "div" _ _ _ h1 h2⟩

/-- C3: order-independence of the Wrapper Collapser.  `UStep sn` unwraps any
one eligible element anywhere in the forest; any maximal `UStep` sequence
from `f` (i.e. any scan order) ends in the same tree, namely the fixed point
the implementation computes (`minimize_nesting sn f`).  Proof: each unwrap
strictly decreases the node count and two simultaneous unwraps can be
rejoined in at most one step each (`UStep_diamond`), so by the Church-Rosser
property all normal forms coincide. -/
theorem c3_order_independence (sn : Bool) (f b : List Node)
    (hreach : Relation.ReflTransGen (UStep sn) f b)
    (hnf : ∀ c, ¬ UStep sn b c) :
    b = minimize_nesting sn f := by
  have hm := minimize_nesting_reaches sn f
  have hmnf : ∀ c, ¬ UStep sn (minimize_nesting sn f) c :=
    unwrapFirst_none_no_ustep (minimize_nesting_fix sn f)
  have hdia : ∀ a b c : List Node, UStep sn a b → UStep sn a c →
      ∃ d, Relation.ReflGen (UStep sn) b d ∧
        Relation.ReflTransGen (UStep sn) c d := by
    intro a b c h1 h2
    obtain ⟨d, hd1, hd2⟩ := UStep_diamond sn h1 h2
    exact ⟨d, hd1, hd2.to_reflTransGen⟩
  obtain ⟨d, hbd, hmd⟩ := Relation.church_rosser hdia hreach hm
  have h1 := reflTransGen_eq_of_normal hbd hnf
  have h2 := reflTransGen_eq_of_normal hmd hmnf
  rw [h1, h2]

/-- C3 witness: a one-step maximal rewrite from `<div><div>x</div></div>`
ends at `<div>x</div>`, which is what `minimize_nesting` returns. -/
theorem c3_witness :
    [Node.element "div" [] [Node.text "x"]]
      = minimize_nesting true
          [Node.element "div" [] [Node.element "div" [] [Node.text "x"]]] := by
  have helig : eligible true "div" [] [Node.element "div" [] [Node.text "x"]] = true := by
    decide
  have hstep : UStep true
      [Node.element "div" [] [Node.element "div" [] [Node.text "x"]]]
      [Node.element "div" [] [Node.text "x"]] := by
    have h := @UStep.unwrap true "div" [Node.element "div" [] [Node.text "x"]] [] helig
    simpa using h
  have hnone : unwrapFirst true [Node.element "div" [] [Node.text "x"]] = none := by
    decide
  exact c3_order_independence true _ _ (Relation.ReflTransGen.single hstep)
    (unwrapFirst_none_no_ustep hnone)

/-- C4 (counterexample): the pipeline is not idempotent.  On
`<div><div>x</div><div></div></div>` the first run prunes the empty inner
`div` after the collapser already ran, leaving `<div><div>x</div></div>`;
a second run then collapses that wrapper to `<div>x</div>`. -/
theorem c4_counterexample :
    clean_html defaultConfig (clean_html defaultConfig
        [Node.element "div" [] [Node.element "div" [] [Node.text "x"],
          Node.element "div" [] []]])
      ≠ clean_html defaultConfig
        [Node.element "div" [] [Node.element "div" [] [Node.text "x"],
          Node.element "div" [] []]] := by
  decide

/-- C4 (amended): the pipeline is idempotent for every configuration in which
the Wrapper Collapser and the Empty Element Pruner are not both enabled.
(With both enabled, pruning an empty element can expose a fresh single-child
wrapper that only a second run collapses, as the counterexample shows.) -/
theorem c4_idempotent_unless_both_loops (cfg : Config) (t : List Node)
    (hcase : cfg.minimize_nesting = false ∨ cfg.remove_empty = false) :
    clean_html cfg (clean_html cfg t) = clean_html cfg t :=
  pipeline_idem_aux cfg t hcase

/-- C4 witness: idempotence holds concretely with the pruner disabled. -/
theorem c4_witness :
    clean_html { defaultConfig with remove_empty := false }
        (clean_html { defaultConfig with remove_empty := false }
          [Node.element "div" [] [Node.element "div" [] [Node.text "x"],
            Node.element "div" [] []]])
      = clean_html { defaultConfig with remove_empty := false }
          [Node.element "div" [] [Node.element "div" [] [Node.text "x"],
            Node.element "div" [] []]] :=
  c4_idempotent_unless_both_loops _ _ (Or.inr rfl)

/-- C5: attribute allow-list closure.  Every element of any pipeline output
has its attribute keys inside `keep_attr`; with an empty keep-set every
element ends with no attributes at all. -/
theorem c5_attribute_closure (cfg : Config) (t : List Node) :
    forestAll (attrsOKP cfg.keep_attr) (clean_html cfg t) = true
    ∧ (cfg.keep_attr = [] → forestAll noAttrsP (clean_html cfg t) = true) := by
  refine ⟨clean_html_attrsOK cfg t, fun hk => ?_⟩
  refine forestAll_imp ?_ _ (clean_html_attrsOK cfg t)
  intro x hx
  cases x with
  | element n a cs =>
    cases a with
    | nil => simp [noAttrsP]
    | cons kv rest =>
      rw [hk] at hx
      simp [attrsOKP] at hx
  | text s => simp [noAttrsP]
  | comment s => simp [noAttrsP]

/-- C5 witness: the closure at a concrete configuration with an empty
keep-set. -/
theorem c5_witness :
    forestAll (attrsOKP ([] : List String))
        (clean_html { defaultConfig with keep_attr := [] }
          [Node.element "div" [("id", "v")] [Node.text "x"]]) = true
    ∧ forestAll noAttrsP
        (clean_html { defaultConfig with keep_attr := [] }
          [Node.element "div" [("id", "v")] [Node.text "x"]]) = true := by
  have h := c5_attribute_closure { defaultConfig with keep_attr := [] }
    [Node.element "div" [("id", "v")] [Node.text "x"]]
  exact ⟨h.1, h.2 rfl⟩

/-- C6: no residual removed tags.  No element of any pipeline output carries
a name from `remove_tags`, and the Tag Remover deletes a matched element
together with its whole subtree — nothing of it (children included) is
reattached in the surrounding sequence. -/
theorem c6_no_residual_tags (cfg : Config) (t : List Node)
    (names : List String) (n : String) (a : List (String × String))
    (cs l r : List Node) (hmem : names.contains n = true) :
    forestAll (noBannedP cfg.remove_tag) (clean_html cfg t) = true
    ∧ removeTags names (l ++ Node.element n a cs :: r)
        = removeTags names l ++ removeTags names r := by
  refine ⟨clean_html_noBanned cfg t, ?_⟩
  have hm : n ∈ names := by simpa using hmem
  rw [removeTags_append]
  simp [removeTags, removeTagsN, hm]

/-- C6 witness: a `script` subtree (content included) disappears whole. -/
theorem c6_witness :
    forestAll (noBannedP defaultConfig.remove_tag)
        (clean_html defaultConfig
          [Node.element "p" [] [Node.element "script" [] [Node.text "x"]]]) = true
    ∧ removeTags ["script"]
        ([Node.text "a"] ++ Node.element "script" [] [Node.text "x"] :: [Node.text "b"])
      = removeTags ["script"] [Node.text "a"] ++ removeTags ["script"] [Node.text "b"] := by
  have h := c6_no_residual_tags defaultConfig
    [Node.element "p" [] [Node.element "script" [] [Node.text "x"]]]
    ["script"] "script" [] [Node.text "x"] [Node.text "a"] [Node.text "b"]
    (by simp)
  exact h

/-- C7: after `remove_empty_tags` reaches its fixed point no element of the
forest has zero significant children; the root container (the soup object,
which `find_all` never returns) always survives, and on the empty document
every pass of the pipeline is a safe no-op. -/
theorem c7_empty_pruner_safety :
    (∀ f : List Node, forestAll noEmptyP (remove_empty_tags f) = true)
    ∧ remove_empty_tags ([] : List Node) = []
    ∧ ∀ cfg : Config, clean_html cfg ([] : List Node) = [] := by
  refine ⟨fun f => deleteFirstEmpty_none_forestAll (remove_empty_tags f) (remove_empty_tags_fix f), ?_, ?_⟩
  · rfl
  · intro cfg
    simp [clean_html, removeTags, removeComments, filterAttrs, minimize_nesting,
      minimizeAux, nodeCount, remove_empty_tags, removeEmptyAux]

/-- C8: monotonic shrinkage and termination.  Each unwrap removes exactly one
node, each empty-element decomposition removes at least one, both loops only
shrink the tree, and neither loop performs more iterations than the tree has
nodes. -/
theorem c8_monotonic_shrinkage (sn : Bool) (f g g' h h' : List Node) :
    nodeCount (minimize_nesting sn f) ≤ nodeCount f
    ∧ nodeCount (remove_empty_tags f) ≤ nodeCount f
    ∧ minimizeSteps sn (nodeCount f) f ≤ nodeCount f
    ∧ removeEmptySteps (nodeCount f) f ≤ nodeCount f
    ∧ (unwrapFirst sn g = some h → nodeCount h + 1 = nodeCount g)
    ∧ (deleteFirstEmpty g' = some h' → nodeCount h' < nodeCount g') :=
  ⟨minimizeAux_count sn (nodeCount f) f, removeEmptyAux_count (nodeCount f) f,
   minimizeSteps_le sn (nodeCount f) f, removeEmptySteps_le (nodeCount f) f,
   fun hu => unwrapFirst_count sn g h hu,
   fun hd => deleteFirstEmpty_count g' h' hd⟩

/-- C8 witness: concrete unwrap and deletion steps with their counts. -/
theorem c8_witness :
    unwrapFirst true [Node.element "div" [] [Node.element "div" [] [Node.text "x"]]]
      = some [Node.element "div" [] [Node.text "x"]]
    ∧ nodeCount [Node.element "div" [] [Node.text "x"]] + 1
      = nodeCount [Node.element "div" [] [Node.element "div" [] [Node.text "x"]]]
    ∧ deleteFirstEmpty [Node.element "p" [] []] = some []
    ∧ nodeCount ([] : List Node) < nodeCount [Node.element "p" [] []] := by
  have hu : unwrapFirst true
      [Node.element "div" [] [Node.element "div" [] [Node.text "x"]]]
      = some [Node.element "div" [] [Node.text "x"]] := by decide
  have hd : deleteFirstEmpty [Node.element "p" [] []] = some [] := by decide
  have h := c8_monotonic_shrinkage true []
    [Node.element "div" [] [Node.element "div" [] [Node.text "x"]]]
    [Node.element "p" [] []]
    [Node.element "div" [] [Node.text "x"]] []
  exact ⟨hu, h.2.2.2.2.1 hu, hd, h.2.2.2.2.2 hd⟩

/-- C9 (counterexample): the claim says a Comment child always counts as
significant, so with `remove_comments` disabled an element whose only child
is a whitespace-only Comment is not deleted.  In the code `Comment` is a
`NavigableString`, so `_significant_children` skips whitespace-only comments
and the Empty Element Pruner deletes such an element. -/
theorem c9_counterexample :
    clean_html { defaultConfig with remove_comments := false }
        [Node.element "p" [] [Node.comment "  "]] = []
    ∧ ([] : List Node) ≠ [Node.element "p" [] [Node.comment "  "]] := by
  constructor <;> decide

/-- C9 (amended): a Comment child is significant exactly when its payload is
not empty/all-whitespace (comments are `NavigableString`s and get the same
blankness test as Text).  Hence, with comment removal disabled, an element
whose only child is a non-blank Comment survives the Empty Element Pruner,
while one whose only child is a blank Comment is deleted. -/
theorem c9_comment_significance (s : String) :
    (isBlank s = false → significant (Node.comment s) = true ∧
      remove_empty_tags [Node.element "p" [] [Node.comment s]]
        = [Node.element "p" [] [Node.comment s]])
    ∧ (isBlank s = true → significant (Node.comment s) = false ∧
      remove_empty_tags [Node.element "p" [] [Node.comment s]] = []) := by
  constructor
  · intro h
    refine ⟨by simp [significant, h], ?_⟩
    simp [remove_empty_tags, nodeCount, nodeCountN, removeEmptyAux, deleteNode,
      deleteFirstEmpty, significant_children, List.filter, significant, h]
  · intro h
    refine ⟨by simp [significant, h], ?_⟩
    simp [remove_empty_tags, nodeCount, nodeCountN, removeEmptyAux, deleteNode,
      deleteFirstEmpty, significant_children, List.filter, significant, h]

/-- C9 witness: a non-blank comment keeps its parent alive, a blank one does
not. -/
theorem c9_witness :
    (significant (Node.comment "note") = true ∧
      remove_empty_tags [Node.element "p" [] [Node.comment "note"]]
        = [Node.element "p" [] [Node.comment "note"]])
    ∧ (significant (Node.comment " ") = false ∧
      remove_empty_tags [Node.element "p" [] [Node.comment " "]] = []) := by
  have hb1 : isBlank "note" = false := by decide
  have hb2 : isBlank " " = true := by decide
  exact ⟨(c9_comment_significance "note").1 hb1, (c9_comment_significance " ").2 hb2⟩

/-- C10: determinism.  The tree-cleaning core is a pure function of the
input tree and the configuration: equal inputs under a fixed configuration
give equal outputs (the embedding carries no state besides its arguments;
parsing and serialization are the external collaborators' concern). -/
theorem c10_deterministic (cfg : Config) (t1 t2 : List Node) (h : t1 = t2) :
    clean_html cfg t1 = clean_html cfg t2 := by rw [h]

/-- C10 witness. -/
theorem c10_witness :
    clean_html defaultConfig [Node.text "a"] = clean_html defaultConfig [Node.text "a"] :=
  c10_deterministic defaultConfig _ _ rfl

end CleanHtml
